import Mathlib

/-!
Shallow embedding of the VOTEX real-time speech-to-text post-processing
pipeline (deduplication, disfluency filtering, grammar correction, tone
transformation, break detection, learned-rule store, orchestrator gating and
time budgeting), together with theorems settling the specification claims.

Python strings are modelled as lists of characters (`Str`); each Python string
operation used by the sources is embedded as an executable function on `Str`.
Case mapping is modelled on ASCII letters (the alphabet all the source's
vocabulary lives in), matching Python `str.lower`/`str.upper` there.
-/

set_option maxHeartbeats 1000000

abbrev Str := List Char

/-- ASCII lower-casing of one character (model of Python `str.lower`). -/
def lowerChar (c : Char) : Char :=
  match c with
  | 'A' => 'a' | 'B' => 'b' | 'C' => 'c' | 'D' => 'd' | 'E' => 'e' | 'F' => 'f'
  | 'G' => 'g' | 'H' => 'h' | 'I' => 'i' | 'J' => 'j' | 'K' => 'k' | 'L' => 'l'
  | 'M' => 'm' | 'N' => 'n' | 'O' => 'o' | 'P' => 'p' | 'Q' => 'q' | 'R' => 'r'
  | 'S' => 's' | 'T' => 't' | 'U' => 'u' | 'V' => 'v' | 'W' => 'w' | 'X' => 'x'
  | 'Y' => 'y' | 'Z' => 'z'
  | c => c

/-- ASCII upper-casing of one character (model of Python `str.upper`). -/
def upperChar (c : Char) : Char :=
  match c with
  | 'a' => 'A' | 'b' => 'B' | 'c' => 'C' | 'd' => 'D' | 'e' => 'E' | 'f' => 'F'
  | 'g' => 'G' | 'h' => 'H' | 'i' => 'I' | 'j' => 'J' | 'k' => 'K' | 'l' => 'L'
  | 'm' => 'M' | 'n' => 'N' | 'o' => 'O' | 'p' => 'P' | 'q' => 'Q' | 'r' => 'R'
  | 's' => 'S' | 't' => 'T' | 'u' => 'U' | 'v' => 'V' | 'w' => 'W' | 'x' => 'X'
  | 'y' => 'Y' | 'z' => 'Z'
  | c => c

/-- Is `c` an ASCII uppercase letter? -/
def isUpperAscii (c : Char) : Bool :=
  match c with
  | 'A' | 'B' | 'C' | 'D' | 'E' | 'F' | 'G' | 'H' | 'I' | 'J' | 'K' | 'L' | 'M'
  | 'N' | 'O' | 'P' | 'Q' | 'R' | 'S' | 'T' | 'U' | 'V' | 'W' | 'X' | 'Y' | 'Z' => true
  | _ => false

/-- Is `c` an ASCII lowercase letter (the regex class `[a-z]`)? -/
def isLowerAscii (c : Char) : Bool :=
  match c with
  | 'a' | 'b' | 'c' | 'd' | 'e' | 'f' | 'g' | 'h' | 'i' | 'j' | 'k' | 'l' | 'm'
  | 'n' | 'o' | 'p' | 'q' | 'r' | 's' | 't' | 'u' | 'v' | 'w' | 'x' | 'y' | 'z' => true
  | _ => false

/-- Is `c` an ASCII digit? -/
def isDigitAscii (c : Char) : Bool :=
  match c with
  | '0' | '1' | '2' | '3' | '4' | '5' | '6' | '7' | '8' | '9' => true
  | _ => false

/-- Whitespace test: model of the Python regex class `\s` and of the
whitespace used by `str.split()`/`str.strip()`. -/
def isSpaceChar (c : Char) : Bool := c.isWhitespace

/-- Word-character test: model of the Python regex class `\w` (ASCII). -/
def isWordChar (c : Char) : Bool := isUpperAscii c || isLowerAscii c || isDigitAscii c || c == '_'

/-- Python `str.lower()`, character-wise. -/
def pyLower (s : Str) : Str := s.map lowerChar

/-- The scan of `str.split()`: skip a whitespace run or emit a maximal
non-whitespace word.  The fuel (initially the string length) dominates the
number of steps since every step consumes at least one character; it is kept
structural so that the kernel can evaluate the function. -/
def pySplitAux : Nat → Str → List Str
  | 0, _ => []
  | _ + 1, [] => []
  | fuel + 1, c :: cs =>
    if isSpaceChar c then pySplitAux fuel cs
    else (c :: cs.takeWhile (fun d => !isSpaceChar d)) ::
         pySplitAux fuel (cs.dropWhile (fun d => !isSpaceChar d))

/-- Python `str.split()` with no argument: split on whitespace runs, dropping
empty pieces. -/
def pySplit (s : Str) : List Str := pySplitAux s.length s

/-- Python `' '.join(tokens)`. -/
def joinSpace : List Str → Str
  | [] => []
  | [w] => w
  | w :: ws => w ++ ' ' :: joinSpace ws

/-- Python `str.strip()`: drop whitespace from both ends. -/
def pyStrip (s : Str) : Str :=
  ((s.dropWhile isSpaceChar).reverse.dropWhile isSpaceChar).reverse

/-- The scan of `re.sub(r'\s+', ' ', s)` (fuel structural, as in
`pySplitAux`). -/
def collapseWsAux : Nat → Str → Str
  | 0, _ => []
  | _ + 1, [] => []
  | fuel + 1, c :: cs =>
    if isSpaceChar c then ' ' :: collapseWsAux fuel (cs.dropWhile isSpaceChar)
    else c :: collapseWsAux fuel cs

/-- Python `re.sub(r'\s+', ' ', s)`: collapse every whitespace run to one space. -/
def collapseWs (s : Str) : Str := collapseWsAux s.length s

/-- Python `s[0].upper() + s[1:]` guarded by `if s:` (capitalise the first
character; identity on the empty string). -/
def capFirst : Str → Str
  | [] => []
  | c :: cs => upperChar c :: cs

/-! ### A small engine for the source's word-boundary regex substitutions

All `re.sub` patterns used by the embedded modules are of the shape
`\bw1<sep>w2<sep>...\b` where each `wi` is a literal word and `<sep>` is either
`\s+` or a literal single space, optionally with a final alternation group
whose match is re-inserted by the replacement (`\1`).  The engines below scan
left to right, replace non-overlapping leftmost matches, and continue after
the end of each match in the input (replacement text is never rescanned),
exactly as `re.sub` does. -/

/-- Case-sensitive or case-insensitive character comparison
(`re.IGNORECASE` is modelled by comparing ASCII-lowered characters). -/
def eqCI (ci : Bool) (a b : Char) : Bool :=
  if ci then lowerChar a == lowerChar b else a == b

/-- Consume the literal `pat` from the front of `s`; return the rest. -/
def dropLit (ci : Bool) : Str → Str → Option Str
  | [], s => some s
  | _ :: _, [] => none
  | p :: ps, c :: cs => if eqCI ci p c then dropLit ci ps cs else none

/-- Consume a pattern separator from the front of `s`: a `\s+` (one or more
whitespace characters, consumed greedily) when `wsSep` is true, else one
literal space. -/
def dropSep (wsSep : Bool) : Str → Option Str
  | [] => none
  | c :: cs =>
    if wsSep then (if isSpaceChar c then some (cs.dropWhile isSpaceChar) else none)
    else (if c == ' ' then some cs else none)

/-- Match a separator-joined list of literal words at the front of `s`. -/
def matchWords (ci wsSep : Bool) : List Str → Str → Option Str
  | [], s => some s
  | w :: ws, s =>
    (dropLit ci w s).bind fun s1 =>
      match ws with
      | [] => some s1
      | _ :: _ => (dropSep wsSep s1).bind fun s2 => matchWords ci wsSep ws s2

/-- The `\b` test at the end of a match: next character absent or not a word
character (all embedded patterns end in a word character). -/
def boundaryAfter : Str → Bool
  | [] => true
  | c :: _ => !isWordChar c

/-- A word-boundary pattern `\bw1<sep>...<sep>wn\b`. -/
structure WordPat where
  words : List Str
  wsSep : Bool

/-- Try a `WordPat` at the front of `s`; return the rest after the match. -/
def tryPat (ci : Bool) (p : WordPat) (s : Str) : Option Str :=
  match matchWords ci p.wsSep p.words s with
  | some rest => if boundaryAfter rest then some rest else none
  | none => none

/-- Scanner for `re.sub` with a `WordPat` and a fixed replacement.
`prevWord` tracks whether the previous character of the input is a word
character (the `\b` test at the start of a match); the fuel is the input
length, enough since every step consumes at least one character. -/
def subPatAux (ci : Bool) (p : WordPat) (rep : Str) : Nat → Bool → Str → Str
  | 0, _, s => s
  | _ + 1, _, [] => []
  | fuel + 1, prevWord, c :: cs =>
    if !prevWord then
      match tryPat ci p (c :: cs) with
      | some rest => rep ++ subPatAux ci p rep fuel true rest
      | none => c :: subPatAux ci p rep fuel (isWordChar c) cs
    else c :: subPatAux ci p rep fuel (isWordChar c) cs

/-- `re.sub` of a word-boundary pattern by a fixed replacement.  After a
match the scan resumes with `prevWord := true` since every embedded pattern
ends in a word character. -/
def subPat (ci : Bool) (p : WordPat) (rep : Str) (s : Str) : Str :=
  subPatAux ci p rep s.length false s

/-- A pattern `\bfirst\s+(a1|a2|...)\b` whose replacement re-inserts the
matched alternative (`\1`). -/
structure AltPat where
  first : Str
  alts : List Str

/-- Try the alternatives in order at the front of `s`; on success return the
matched slice (original casing, for `\1`) and the rest.  An alternative whose
trailing `\b` fails is abandoned in favour of the next one, as the regex
engine's backtracking does. -/
def tryAlts (ci : Bool) : List Str → Str → Option (Str × Str)
  | [], _ => none
  | a :: rest, s =>
    match dropLit ci a s with
    | some r => if boundaryAfter r then some (s.take a.length, r) else tryAlts ci rest s
    | none => tryAlts ci rest s

/-- Try an `AltPat` at the front of `s`. -/
def tryAltPat (ci : Bool) (p : AltPat) (s : Str) : Option (Str × Str) :=
  (dropLit ci p.first s).bind fun s1 =>
    (dropSep true s1).bind fun s2 => tryAlts ci p.alts s2

/-- Scanner for `re.sub` of an `AltPat` with replacement `repPre ++ \1`. -/
def subAltAux (ci : Bool) (p : AltPat) (repPre : Str) : Nat → Bool → Str → Str
  | 0, _, s => s
  | _ + 1, _, [] => []
  | fuel + 1, prevWord, c :: cs =>
    if !prevWord then
      match tryAltPat ci p (c :: cs) with
      | some (m, rest) => repPre ++ m ++ subAltAux ci p repPre fuel true rest
      | none => c :: subAltAux ci p repPre fuel (isWordChar c) cs
    else c :: subAltAux ci p repPre fuel (isWordChar c) cs

/-- `re.sub` of an alternation pattern by `repPre ++ \1`. -/
def subAlt (ci : Bool) (p : AltPat) (repPre : Str) (s : Str) : Str :=
  subAltAux ci p repPre s.length false s

/-- Build a one-word `\bw\b` pattern. -/
def wp1 (w : String) : WordPat := ⟨[w.data], true⟩

/-- Build a `\bw1\s+w2...\b` pattern. -/
def wpWs (ws : List String) : WordPat := ⟨ws.map String.data, true⟩

/-- Build a `\bw1 w2...\b` pattern with literal single-space separators. -/
def wpSp (ws : List String) : WordPat := ⟨ws.map String.data, false⟩

/-- Apply a list of `(pattern, replacement)` substitutions in order,
case-insensitively (model of iterating over an ordered substitution map). -/
def applySubsCI (subs : List (WordPat × Str)) (s : Str) : Str :=
  subs.foldl (fun acc pr => subPat true pr.1 pr.2 acc) s

/-! ### Deduplicator (`server.py`: `dedupe_repetition`, `remove_immediate_duplicates`)

`fuzz.ratio` comes from the external fuzzywuzzy library (an external
collaborator; the spec only says "a fuzzy string-similarity score,
case-insensitive").  It is modelled from the spec as the standard
Levenshtein/indel similarity `200 * lcs(a,b) / (|a| + |b|)` (in percent),
which agrees with both fuzzywuzzy backends on the comparisons appearing in
the concrete theorems below; in particular it is `100` exactly on equal
strings and `0` on disjoint ones. -/

/-- Length of a longest common subsequence of two character lists (fuel
structural on the combined length, so the kernel can evaluate it). -/
def lcsLenAux : Nat → Str → Str → Nat
  | 0, _, _ => 0
  | _ + 1, [], _ => 0
  | _ + 1, _ :: _, [] => 0
  | fuel + 1, a :: as, b :: bs =>
    if a = b then lcsLenAux fuel as bs + 1
    else max (lcsLenAux fuel (a :: as) bs) (lcsLenAux fuel as (b :: bs))

/-- Length of a longest common subsequence of two character lists. -/
def lcsLen (a b : Str) : Nat := lcsLenAux (a.length + b.length) a b

/-- Modelled from the spec: the fuzzy string-similarity score used by the
Deduplicator (`fuzz.ratio` of the external fuzzywuzzy library), as the
indel-ratio percentage `200 * lcs / (|a| + |b|)`. -/
def fuzzRatio (a b : Str) : Nat :=
  if a.length + b.length = 0 then 100
  else 200 * lcsLen a b / (a.length + b.length)

/-- `' '.join(tokens[i:i+k])`. -/
def segJoin (tokens : List Str) (i k : Nat) : Str :=
  joinSpace ((tokens.drop i).take k)

/-- The inner `for k in range(w, 0, -1)` of `dedupe_repetition`: find the
largest candidate length `k ≤ w` such that the next `k` tokens fuzzily repeat
the `k` tokens at `i` (similarity at least `thresh`).  The source's
`if i + k > N: continue` guard is vacuous since `k ≤ w ≤ N - i`. -/
def findRepeat (tokens : List Str) (thresh i : Nat) : Nat → Option Nat
  | 0 => none
  | k + 1 =>
    if i + 2 * (k + 1) ≤ tokens.length &&
       thresh ≤ fuzzRatio (pyLower (segJoin tokens i (k + 1)))
                          (pyLower (segJoin tokens (i + (k + 1)) (k + 1))) then
      some (k + 1)
    else findRepeat tokens thresh i k

/-- The outer `while i < N` scan of `dedupe_repetition`: on a repeat of
length `k`, keep the first window and advance by `2k`; otherwise keep one
token and advance by one.  The fuel (initially the token count) dominates the
number of iterations since `i` strictly increases. -/
def dedupeLoop (tokens : List Str) (window thresh : Nat) : Nat → Nat → List Str
  | _, 0 => []
  | i, fuel + 1 =>
    if i < tokens.length then
      match findRepeat tokens thresh i (min window (tokens.length - i)) with
      | some k => (tokens.drop i).take k ++ dedupeLoop tokens window thresh (i + 2 * k) fuel
      | none => (tokens.drop i).take 1 ++ dedupeLoop tokens window thresh (i + 1) fuel
    else []

/-- The `for i in range(1, len(tokens))` loop of `remove_immediate_duplicates`:
keep `tokens[i]` unless it equals `tokens[i-1]` case-insensitively (`prev` is
always the previous input token). -/
def collapseAdjAux : Str → List Str → List Str
  | _, [] => []
  | prev, t :: ts =>
    if pyLower t = pyLower prev then collapseAdjAux t ts
    else t :: collapseAdjAux t ts

/-- `remove_immediate_duplicates`: collapse immediately adjacent
case-insensitive duplicate tokens; inputs with at most one token are returned
unchanged. -/
def remove_immediate_duplicates (text : Str) : Str :=
  match pySplit text with
  | [] => text
  | [_] => text
  | t :: ts => joinSpace (t :: collapseAdjAux t ts)

/-- `dedupe_repetition(text, window=8, score_thresh=85)`: fuzzy windowed
repeat removal followed by the immediate-duplicate collapse pass.  Empty or
single-token input (which includes the source's empty/whitespace-only early
return) is returned unchanged. -/
def dedupe_repetition (text : Str) : Str :=
  let tokens := pySplit text
  if tokens.length ≤ 1 then text
  else remove_immediate_duplicates (joinSpace (dedupeLoop tokens 8 85 0 tokens.length))

/-! ### Disfluency Filter (`disfluency_filter.py`) -/

namespace DisfluencyFilter

/-- The filler vocabulary, ordered by length descending as
`sorted(self.fillers, key=len, reverse=True)` produces.  Same-length fillers
are distinct strings compared by exact equality against the same token slice,
so their mutual order (unspecified for a Python set) cannot affect the
result. -/
def fillers : List Str :=
  (["basically", "literally", "you know", "actually", "kind of", "sort of",
    "totally", "alright", "you see", "really", "i mean", "right", "like",
    "well", "very", "just", "okay", "umm", "uhh", "ehh", "uh", "um", "er",
    "ah", "oh", "so"]).map String.data

/-- The multi-word filler test at one position of the token list:
`' '.join(words[i:i+len(filler_words)]) == filler` with the length guard. -/
def matchFillerAt (ws : List Str) : Option Nat :=
  fillers.findSome? fun f =>
    let fw := pySplit f
    if fw.length ≤ ws.length && joinSpace (ws.take fw.length) == f then some fw.length
    else none

/-- The scanning loop of `remove_fillers` over the lowered token list. -/
def removeFillersList : Nat → List Str → List Str
  | 0, ws => ws
  | _ + 1, [] => []
  | fuel + 1, w :: rest =>
    match matchFillerAt (w :: rest) with
    | some n => removeFillersList fuel ((w :: rest).drop n)
    | none => w :: removeFillersList fuel rest

/-- `remove_fillers`: tokenize the lowered text, drop filler runs
(longest-phrase-first), and re-join with single spaces. -/
def remove_fillers (text : Str) : Str :=
  let words := pySplit (pyLower text)
  joinSpace (removeFillersList words.length words)

/-- The repetitions `(\s+\1){...}` of a stutter candidate: cumulative lengths
consumed after each further case-insensitive repetition of `cand`, each
preceded by a maximal whitespace run. -/
def stutterReps (cand : Str) : Nat → Str → List Nat
  | 0, _ => []
  | fuel + 1, s =>
    let wsLen := (s.takeWhile isSpaceChar).length
    if wsLen == 0 then []
    else
      match dropLit true cand (s.drop wsLen) with
      | some s2 =>
        (wsLen + cand.length) ::
          (stutterReps cand fuel s2).map (fun n => n + (wsLen + cand.length))
      | none => []

/-- Backtracking over the greedy repetition count: given the cumulative
consumed lengths in reverse (largest count first), pick the largest count of
at least 2 repetitions whose end position is at a word boundary. -/
def chooseRep (base : Nat) (s : Str) : List Nat → Option Nat
  | [] => none
  | n :: rest =>
    if 2 ≤ rest.length + 1 && boundaryAfter (s.drop (base + n)) then some (base + n)
    else chooseRep base s rest

/-- Backtracking over the greedy `\w+` candidate length (longest first):
try each prefix of the maximal word as the stutter candidate. -/
def tryStutterLen (s w : Str) : Nat → Option (Str × Str)
  | 0 => none
  | l + 1 =>
    let cand := w.take (l + 1)
    let reps := stutterReps cand s.length (s.drop (l + 1))
    match chooseRep (l + 1) s reps.reverse with
    | some total => some (cand, s.drop total)
    | none => tryStutterLen s w l

/-- Try the stutter pattern `\b(\w+)(\s+\1){2,}\b` at the front of `s`
(which starts with a word character at a word boundary); on success return
the replacement `\1` (the first occurrence, original casing) and the rest. -/
def tryStutter (s : Str) : Option (Str × Str) :=
  let w := s.takeWhile isWordChar
  tryStutterLen s w w.length

/-- Scanner for `remove_stutters`' `re.sub`; `prevWord` tracks the `\b`
before the match. -/
def removeStuttersAux : Nat → Bool → Str → Str
  | 0, _, s => s
  | _ + 1, _, [] => []
  | fuel + 1, prevWord, c :: cs =>
    if !prevWord && isWordChar c then
      match tryStutter (c :: cs) with
      | some (rep, rest) => rep ++ removeStuttersAux fuel true rest
      | none => c :: removeStuttersAux fuel (isWordChar c) cs
    else c :: removeStuttersAux fuel (isWordChar c) cs

/-- `remove_stutters`: `re.sub(r'\b(\w+)(\s+\1){2,}\b', r'\1', text)` with
`re.IGNORECASE` (a word immediately repeated three or more times collapses to
its first occurrence). -/
def remove_stutters (text : Str) : Str :=
  removeStuttersAux text.length false text

/-- `clean_text`: stutters, then fillers, then whitespace cleanup, then
capitalise the first letter (of a string that is otherwise all-lowercase,
since `remove_fillers` tokenized the lowered text). -/
def clean_text (text : Str) : Str :=
  capFirst (pyStrip (collapseWs (remove_fillers (remove_stutters text))))

end DisfluencyFilter

/-! ### Tone Transformer (`tone_controller.py`) -/

namespace ToneController

/-- The `normalize_map` slang/casual-to-neutral substitutions, in the
source's (insertion-ordered dict) order; every pattern is `\bword\b` with
`re.IGNORECASE`. -/
def normalize_map : List (WordPat × Str) :=
  [(wp1 "hey", "hello".data), (wp1 "hi", "hello".data), (wp1 "yo", "hello".data),
   (wp1 "dude", []), (wp1 "man", []), (wp1 "guys", "everyone".data),
   (wp1 "wanna", "want to".data), (wp1 "gonna", "going to".data),
   (wp1 "gotta", "have to".data), (wp1 "kinda", "kind of".data),
   (wp1 "sorta", "sort of".data), (wp1 "yeah", "yes".data),
   (wp1 "nope", "no".data), (wp1 "yep", "yes".data), (wp1 "ok", "okay".data),
   (wp1 "super", "very".data), (wp1 "totally", "completely".data),
   (wp1 "basically", "essentially".data)]

/-- The residual filler removals of `normalize`, in order.  The two-word
fillers are written with a literal single space in the source pattern
(`r'\b' + 'you know' + r'\b'`), so they do not match across wider
whitespace. -/
def normalizeFillers : List WordPat :=
  [wp1 "like", wp1 "um", wp1 "uh", wpSp ["you", "know"], wpSp ["i", "mean"]]

/-- The body of `normalize` after the initial `text.lower()`: ordered
slang substitution, filler removal, then the (twice-repeated) whitespace
collapse and strip. -/
def normalizeCore (s : Str) : Str :=
  let r1 := applySubsCI normalize_map s
  let r2 := normalizeFillers.foldl (fun acc p => subPat true p [] acc) r1
  let r3 := pyStrip (collapseWs r2)
  pyStrip (collapseWs r3)

/-- `normalize`: lowercase, normalize slang/fillers, clean whitespace, then
recapitalise the first letter. -/
def normalize (text : Str) : Str :=
  capFirst (normalizeCore (pyLower text))

/-- `transform(text, 'neutral')`: the `mode == 'neutral'` branch of
`transform` returns the normalized text unchanged (the claim under test
concerns only this branch; the other tone branches are further
transformations of the same normalized baseline). -/
def transformNeutral (text : Str) : Str := normalize text

end ToneController

/-! ### Grammar Corrector (`grammar_processor.py`) -/

/-- The ASCII apostrophe (used inside contraction words and replacements). -/
def apoChar : Char := Char.ofNat 39

/-- A word containing one apostrophe, written as `a` + apostrophe + `b`. -/
def contrWord (a b : String) : Str := a.data ++ apoChar :: b.data

namespace GrammarProcessor

/-- `fix_common_mistakes`: the ordered `re.sub` list ("could of" family,
"alot", and the your/its/their/there confusions with a captured
alternative). -/
def fix_common_mistakes (s : Str) : Str :=
  let s := subPat true (wpWs ["could", "of"]) "could have".data s
  let s := subPat true (wpWs ["should", "of"]) "should have".data s
  let s := subPat true (wpWs ["would", "of"]) "would have".data s
  let s := subPat true (wp1 "alot") "a lot".data s
  let s := subAlt true ⟨"your".data, ["going".data, "coming".data, "doing".data]⟩
             (contrWord "you" "re ") s
  let s := subAlt true ⟨"its".data, ["going".data, "coming".data, "doing".data]⟩
             (contrWord "it" "s ") s
  let s := subAlt true ⟨"their".data, ["is".data, "are".data, "was".data, "were".data]⟩
             ("there ".data) s
  let s := subAlt true ⟨"there".data, ["going".data, "coming".data]⟩
             (contrWord "they" "re ") s
  s

/-- `fix_double_negatives`: the three fixed double-negative rewrites. -/
def fix_double_negatives (s : Str) : Str :=
  let s := subPat true ⟨[contrWord "don" "t", "have".data, "no".data], true⟩
             (contrWord "don" "t have any") s
  let s := subPat true ⟨[contrWord "didn" "t", "have".data, "no".data], true⟩
             (contrWord "didn" "t have any") s
  let s := subPat true ⟨[contrWord "can" "t", "see".data, "nothing".data], true⟩
             (contrWord "can" "t see anything") s
  s

/-- `self.time_words`. -/
def time_words : List Str :=
  (["today", "tomorrow", "yesterday", "tonight", "now", "later", "soon",
    "morning", "afternoon", "evening", "night", "week", "month", "year",
    "monday", "tuesday", "wednesday", "thursday", "friday", "saturday",
    "sunday"]).map String.data

/-- `self.frequency_adverbs`. -/
def frequency_adverbs : List Str :=
  (["always", "usually", "often", "sometimes", "rarely", "never",
    "frequently", "occasionally", "seldom"]).map String.data

/-- The articles tested by word-order pattern 1. -/
def articleList : List Str := (["a", "an", "the"]).map String.data

/-- The auxiliary verbs excluded from the adverb swap of pattern 2. -/
def auxVerbs : List Str :=
  (["am", "is", "are", "was", "were", "have", "has", "had"]).map String.data

/-- Word-order pattern 1 (`while i < len(words) - 2`): rotate
`article + time_word + noun` into `article + noun + time_word`, scanning the
mutated list with `i` advancing by one each iteration.  (The source's inner
`if i + 2 < len(words)` duplicates the loop condition.) -/
def fwoPass1 (fuel : Nat) (ws : List Str) (i : Nat) : List Str :=
  match fuel with
  | 0 => ws
  | fuel + 1 =>
    if i + 2 < ws.length then
      let ws1 :=
        if articleList.contains (pyLower (ws.getD i [])) &&
           time_words.contains (pyLower (ws.getD (i + 1) [])) then
          if i + 2 < ws.length then
            let noun := ws.getD (i + 2) []
            let timeWord := ws.getD (i + 1) []
            ((ws.set i (ws.getD i [])).set (i + 1) noun).set (i + 2) timeWord
          else ws
        else ws
      fwoPass1 fuel ws1 (i + 1)
    else ws

/-- Word-order pattern 2 (`for i in range(1, len(words) - 1)`): swap a
frequency adverb with the preceding word unless that word is an auxiliary,
scanning the mutated list. -/
def fwoPass2 (fuel : Nat) (ws : List Str) (i : Nat) : List Str :=
  match fuel with
  | 0 => ws
  | fuel + 1 =>
    if i + 1 < ws.length then
      let ws1 :=
        if frequency_adverbs.contains (pyLower (ws.getD i [])) &&
           !(auxVerbs.contains (pyLower (ws.getD (i - 1) []))) then
          (ws.set i (ws.getD (i - 1) [])).set (i - 1) (ws.getD i [])
        else ws
      fwoPass2 fuel ws1 (i + 1)
    else ws

/-- `fix_word_order`: split, run both passes, re-join. -/
def fix_word_order (s : Str) : Str :=
  let ws := pySplit s
  joinSpace (fwoPass2 ws.length (fwoPass1 ws.length ws 0) 1)

/-- `self.vowel_sounds` of `fix_articles`. -/
def vowel_sounds : List Str :=
  (["a", "e", "i", "o", "u", "hour", "honest", "honor"]).map String.data

/-- Python `str.strip('.,!?;:')` (used on the lowered following word). -/
def stripPunctEnds (s : Str) : Str :=
  let pc := fun c => ([',', '.', '!', '?', ';', ':'].contains c)
  ((s.dropWhile pc).reverse.dropWhile pc).reverse

/-- Membership in the literal `'aeiou'`. -/
def isVowelLetter (c : Char) : Bool :=
  c == 'a' || c == 'e' || c == 'i' || c == 'o' || c == 'u'

/-- Overwrite `fixed_words[-1]` (the head of the reversed accumulator). -/
def setHead (v : Str) : List Str → List Str
  | [] => []
  | _ :: t => v :: t

/-- The loop of `fix_articles`, building `fixed_words` (kept reversed): when
the previous input word is `a`/`an` (case-insensitively), its already-appended
copy is patched according to the phonetic-vowel test on the current word.
`setHead` on `[]` is unreachable since the branches require `0 < i`. -/
def fixArticlesGo (fuel : Nat) (ws : List Str) (i : Nat) (accRev : List Str) : List Str :=
  match fuel with
  | 0 => accRev.reverse
  | fuel + 1 =>
    if i < ws.length then
      let word := ws.getD i []
      let accRev1 :=
        if 0 < i ∧ pyLower (ws.getD (i - 1) []) = "a".data then
          let nw := stripPunctEnds (pyLower word)
          if nw ≠ [] ∧ (isVowelLetter (nw.headD ' ') || vowel_sounds.contains nw) then
            setHead (if ws.getD (i - 1) [] = "a".data then "an".data else "An".data) accRev
          else accRev
        else if 0 < i ∧ pyLower (ws.getD (i - 1) []) = "an".data then
          let nw := stripPunctEnds (pyLower word)
          if nw ≠ [] ∧ !isVowelLetter (nw.headD ' ') ∧ !vowel_sounds.contains nw then
            setHead (if ws.getD (i - 1) [] = "an".data then "a".data else "A".data) accRev
          else accRev
        else accRev
      fixArticlesGo fuel ws (i + 1) (word :: accRev1)
    else accRev.reverse

/-- `fix_articles`: fix `a`/`an` against the following word. -/
def fix_articles (s : Str) : Str :=
  let ws := pySplit s
  joinSpace (fixArticlesGo ws.length ws 0 [])

/-- Scanner for `re.sub(r'([.!?]\s+)([a-z])', ...)`: capitalise a lowercase
letter following sentence-ending punctuation and whitespace. -/
def afterPunctCapAux : Nat → Str → Str
  | 0, s => s
  | _ + 1, [] => []
  | fuel + 1, c :: cs =>
    if c == '.' || c == '!' || c == '?' then
      let run := cs.takeWhile isSpaceChar
      if run.isEmpty then c :: afterPunctCapAux fuel cs
      else
        match cs.drop run.length with
        | d :: ds =>
          if isLowerAscii d then c :: (run ++ upperChar d :: afterPunctCapAux fuel ds)
          else c :: afterPunctCapAux fuel cs
        | [] => c :: afterPunctCapAux fuel cs
    else c :: afterPunctCapAux fuel cs

/-- The day names capitalised by `fix_capitalization`. -/
def dayNames : List Str :=
  (["monday", "tuesday", "wednesday", "thursday", "friday", "saturday",
    "sunday"]).map String.data

/-- The month names capitalised by `fix_capitalization`. -/
def monthNames : List Str :=
  (["january", "february", "march", "april", "may", "june", "july", "august",
    "september", "october", "november", "december"]).map String.data

/-- `fix_capitalization`: first letter, after sentence punctuation, the
pronoun `i` (case-sensitive pattern `\bi\b`), then day and month names
(each `word.capitalize()`d). -/
def fix_capitalization (s : Str) : Str :=
  let s := capFirst s
  let s := afterPunctCapAux s.length s
  let s := subPat false ⟨[['i']], true⟩ ['I'] s
  let s := dayNames.foldl (fun acc d => subPat true ⟨[d], true⟩ (capFirst d) acc) s
  let s := monthNames.foldl (fun acc m => subPat true ⟨[m], true⟩ (capFirst m) acc) s
  s

/-- The conjunctions of `add_punctuation`'s comma rule (no `\b`, bare `\s+`
delimiters, case-sensitive). -/
def conjList : List Str := (["and", "but", "or", "so", "yet"]).map String.data

/-- Try one conjunction alternative followed by `\s+` at the front of `s`. -/
def tryConj (s : Str) : Option (Str × Str) :=
  conjList.findSome? fun w =>
    match dropLit false w s with
    | some r =>
      let tw := r.takeWhile isSpaceChar
      if tw.isEmpty then none else some (w, r.drop tw.length)
    | none => none

/-- Scanner for `re.sub(r'\s+(and|but|or|so|yet)\s+', r', \1 ', s)`. -/
def commaSubAux : Nat → Str → Str
  | 0, s => s
  | _ + 1, [] => []
  | fuel + 1, c :: cs =>
    if isSpaceChar c then
      let run := (c :: cs).takeWhile isSpaceChar
      match tryConj ((c :: cs).drop run.length) with
      | some (w, rest) => ',' :: ' ' :: (w ++ ' ' :: commaSubAux fuel rest)
      | none => c :: commaSubAux fuel cs
    else c :: commaSubAux fuel cs

/-- `add_punctuation`: append a period when the text does not already end in
sentence punctuation, then (only for texts longer than 8 words) insert a
comma before conjunctions. -/
def add_punctuation (s : Str) : Str :=
  let s1 :=
    match s.getLast? with
    | some l => if l == '.' || l == '!' || l == '?' then s else s ++ ['.']
    | none => s
  if 8 < (pySplit s1).length then commaSubAux s1.length s1 else s1

/-- The punctuation class `[,.!?;:]` of the spacing cleanup. -/
def punctClass : List Char := [',', '.', '!', '?', ';', ':']

/-- Scanner for `re.sub(r'\s+([,.!?;:])', r'\1', s)`. -/
def spaceBeforePunctAux : Nat → Str → Str
  | 0, s => s
  | _ + 1, [] => []
  | fuel + 1, c :: cs =>
    if isSpaceChar c then
      let run := (c :: cs).takeWhile isSpaceChar
      match (c :: cs).drop run.length with
      | p :: rest =>
        if punctClass.contains p then p :: spaceBeforePunctAux fuel rest
        else c :: spaceBeforePunctAux fuel cs
      | [] => c :: spaceBeforePunctAux fuel cs
    else c :: spaceBeforePunctAux fuel cs

/-- Scanner for `re.sub(r'([,.!?;:])([^\s])', r'\1 \2', s)`. -/
def spaceAfterPunctAux : Nat → Str → Str
  | 0, s => s
  | _ + 1, [] => []
  | fuel + 1, p :: rest =>
    if punctClass.contains p then
      match rest with
      | c :: rs =>
        if !isSpaceChar c then p :: ' ' :: c :: spaceAfterPunctAux fuel rs
        else p :: spaceAfterPunctAux fuel rest
      | [] => [p]
    else p :: spaceAfterPunctAux fuel rest

/-- The `try`-block body of `correct_text`: lowercase, then the ordered
sub-rules (common mistakes, double negatives, word order, articles,
capitalisation, punctuation, spacing cleanup). -/
def correctBody (text : Str) : Str :=
  let c0 := pyLower text
  let c1 := fix_common_mistakes c0
  let c2 := fix_double_negatives c1
  let c3 := fix_word_order c2
  let c4 := fix_articles c3
  let c5 := fix_capitalization c4
  let c6 := add_punctuation c5
  let c7 := spaceBeforePunctAux c6.length c6
  let c8 := spaceAfterPunctAux c7.length c7
  pyStrip (collapseWs c8)

/-- `correct_text`: empty/whitespace-only input is returned unchanged,
otherwise the rule pipeline runs. -/
def correct_text (text : Str) : Str :=
  if pyStrip text = [] then text else correctBody text

/-- The `except`-branch fallback of `correct_text`: capitalise the first
letter and ensure terminal punctuation. -/
def grammarFallback (text : Str) : Str :=
  match text with
  | [] => []
  | c :: cs =>
    let t := upperChar c :: cs
    match t.getLast? with
    | some l => if l == '.' || l == '!' || l == '?' then t else t ++ ['.']
    | none => t

/-- The `try/except` boundary of `correct_text`, with the body abstracted as
a fallible computation: a body failure is caught and replaced by the minimal
fallback transform, never propagated. -/
def correctTextBoundary (body : Str → Except Unit Str) (text : Str) : Str :=
  if pyStrip text = [] then text
  else
    match body text with
    | Except.ok c => c
    | Except.error _ => grammarFallback text

end GrammarProcessor

/-! ### Paragraph/Break Detector (`paragraph_detector.py`) -/

/-- The break classification returned by `detect_break_type`. -/
inductive BreakType where
  | none
  | sentence
  | paragraph
deriving DecidableEq, Repr

/-- The threshold state of a `ParagraphDetector` (durations in seconds,
modelled as rationals). -/
structure ParagraphDetector where
  sentence_pause : ℚ
  paragraph_pause : ℚ

/-- `detect_break_type(silence_duration)` with an explicit duration:
`paragraph` when the duration reaches `paragraph_pause`, else `sentence`
when it reaches `sentence_pause`, else `none`. -/
def ParagraphDetector.detect_break_type (pd : ParagraphDetector) (d : ℚ) : BreakType :=
  if pd.paragraph_pause ≤ d then BreakType.paragraph
  else if pd.sentence_pause ≤ d then BreakType.sentence
  else BreakType.none

/-! ### Learned-Rule Store (`database.py`, `feedback_memory.py`) -/

namespace TranscriptionDatabase

/-- One row of the `corrections` table (timestamps and foreign keys are
irrelevant to the claims and omitted). -/
structure Correction where
  original_text : Str
  wrong_output : Str
  corrected_output : Str
  tone_mode : Str
deriving DecidableEq

/-- The SQL filter `LOWER(original_text) = LOWER(?) AND tone_mode = ?`. -/
def matchesOriginal (c : Correction) (orig tone : Str) : Bool :=
  pyLower c.original_text == pyLower orig && c.tone_mode == tone

/-- The count the orchestrator queries before overriding: rows of
`corrections` with the same lowered original, the given corrected output
(compared exactly), and the tone mode. -/
def correctionCount (db : List Correction) (orig out tone : Str) : Nat :=
  (db.filter fun c => matchesOriginal c orig tone && c.corrected_output == out).length

/-- `check_exact_match(original, tone_mode)`: group the matching corrections
by corrected output and return a most frequent one (SQLite's `ORDER BY count
DESC LIMIT 1`; the model resolves count ties deterministically in favour of
the earlier group, which no claim depends on). -/
def check_exact_match (db : List Correction) (orig tone : Str) : Option Str :=
  match ((db.filter fun c => matchesOriginal c orig tone).map
          Correction.corrected_output).dedup with
  | [] => Option.none
  | o :: os =>
    some (os.foldl
      (fun best cand =>
        if correctionCount db orig best tone < correctionCount db orig cand tone
        then cand else best) o)

/-- One row of the `learned_rules` table. -/
structure LearnedRule where
  from_word : Str
  to_word : Str
  tone_mode : Str
  usage_count : Nat
deriving DecidableEq

/-- `rule_key = f"{word}→{corrected}:{tone_mode}"`. -/
def ruleKey (fw tw tone : Str) : Str := fw ++ '→' :: (tw ++ ':' :: tone)

/-- The key of a stored rule. -/
def LearnedRule.key (r : LearnedRule) : Str := ruleKey r.from_word r.to_word r.tone_mode

/-- The per-pair upsert of `_extract_and_store_rules`: increment
`usage_count` of the (unique, by the SQL `UNIQUE` constraint) row with this
`rule_key`, or insert a fresh row with `usage_count = 1`. -/
def upsertRule (fw tw tone : Str) : List LearnedRule → List LearnedRule
  | [] => [⟨fw, tw, tone, 1⟩]
  | r :: rs =>
    if r.key = ruleKey fw tw tone then
      ⟨r.from_word, r.to_word, r.tone_mode, r.usage_count + 1⟩ :: rs
    else r :: upsertRule fw tw tone rs

/-- The rule derivation loop shared by `_extract_and_store_rules` and
`feedback_memory._extract_rules`: walk the lowered token lists in parallel
(`for i, word in enumerate(original_words)` with the guard
`i < len(corrected_words)`) and emit each differing pair. -/
def rulePairsWords : List Str → List Str → List (Str × Str)
  | [], _ => []
  | _ :: _, [] => []
  | w :: ws, c :: cs => (if w ≠ c then [(w, c)] else []) ++ rulePairsWords ws cs

/-- The word-level rule pairs derived from a correction. -/
def rulePairs (original corrected : Str) : List (Str × Str) :=
  rulePairsWords (pySplit (pyLower original)) (pySplit (pyLower corrected))

/-- `_extract_and_store_rules`: upsert a rule for every differing aligned
word pair. -/
def extract_and_store_rules (store : List LearnedRule) (original corrected tone : Str) :
    List LearnedRule :=
  (rulePairs original corrected).foldl (fun st p => upsertRule p.1 p.2 tone st) store

/-- Descending insertion by `usage_count` (the model of SQLite's
`ORDER BY usage_count DESC`; tie order, unspecified in SQLite, is
deterministic here). -/
def insertByUsage (r : LearnedRule) : List LearnedRule → List LearnedRule
  | [] => [r]
  | x :: xs =>
    if x.usage_count ≤ r.usage_count then r :: x :: xs else x :: insertByUsage r xs

/-- Sort rules by `usage_count` descending. -/
def sortByUsageDesc : List LearnedRule → List LearnedRule
  | [] => []
  | x :: xs => insertByUsage x (sortByUsageDesc xs)

/-- `get_learned_rules(tone_mode, min_usage=2)`: the active-rules query
(`WHERE tone_mode = ? AND usage_count >= ? ORDER BY usage_count DESC`). -/
def get_learned_rules (store : List LearnedRule) (tone : Str) (minUsage : Nat) :
    List LearnedRule :=
  sortByUsageDesc
    (store.filter fun r => r.tone_mode == tone && decide (minUsage ≤ r.usage_count))

end TranscriptionDatabase

/-! ### Pipeline Orchestrator (`server.py`: `run_recorder`) -/

open TranscriptionDatabase in
/-- The outcome of one utterance through `run_recorder`: either the
high-confidence learned override, or the full staged pipeline. -/
inductive RecorderResult where
  | learned (out : Str)
  | staged (final : Str)
deriving DecidableEq

open TranscriptionDatabase in
/-- The learned-override decision of `run_recorder`: consult
`check_exact_match`; only when the returned correction is non-empty (the
Python truthiness test `if exact_match:`) and has been recorded at least 3
times for this (lowered original, corrected output, tone mode) does it become
the override. -/
def learnedOverride (db : List Correction) (utterance tone : Str) : Option Str :=
  match check_exact_match db utterance tone with
  | some out =>
    if out ≠ [] ∧ 3 ≤ correctionCount db utterance out tone then some out
    else Option.none
  | Option.none => Option.none

open TranscriptionDatabase in
/-- The staged pipeline of `run_recorder` (the non-override path):
deduplication, disfluency filtering, grammar, tone, formatting.  The tone
transformation of the current mode and the nltk-backed auto-formatter stage
are supplied as function parameters; the grammar stage's time boxing is
modelled separately by `runProcessingTail`. -/
def stagedPipeline (toneFn fmtFn : Str → Str) (utterance : Str) : Str :=
  fmtFn (toneFn (GrammarProcessor.correct_text
    (DisfluencyFilter.clean_text (dedupe_repetition utterance))))

open TranscriptionDatabase in
/-- The dispatch of `run_recorder`: override when `learnedOverride` fires,
else the staged pipeline. -/
def runRecorder (db : List Correction) (toneFn fmtFn : Str → Str)
    (utterance tone : Str) : RecorderResult :=
  match learnedOverride db utterance tone with
  | some out => RecorderResult.learned out
  | Option.none => RecorderResult.staged (stagedPipeline toneFn fmtFn utterance)

/-- The timing-relevant outcome of the post-filtering part of
`run_recorder` (grammar, tone, formatting) under the latency budget. -/
structure TimedTail where
  corrected : Str
  final : Str
  grammarTimeout : Option ℚ
  total : ℚ

/-- `MAX_LATENCY = 1.5` seconds. -/
def MAX_LATENCY : ℚ := 3 / 2

/-- `grammar_timeout = min(0.3, remaining_time - 0.1)` where
`remaining_time = MAX_LATENCY - elapsed - 0.05`. -/
def grammarTimeoutOf (elapsed : ℚ) : ℚ :=
  min (3 / 10) (MAX_LATENCY - elapsed - 1 / 20 - 1 / 10)

/-- The budget logic of `run_recorder` after the filtered text is available,
as a timing model with explicit stage durations: `remaining_time =
MAX_LATENCY - elapsed - 0.05`; if at most `0.1` remains the grammar and tone
stages are skipped and the filtered text is final; otherwise the grammar
corrector `g` (taking `gDur` seconds) is submitted to a
`ThreadPoolExecutor` and awaited under the timeout `grammarTimeoutOf
elapsed` — on timeout its result is discarded and the filtered text
continues — and then the tone and formatting stages run (not time-boxed),
taking `toneDur + fmtDur` seconds.  The grammar block is entered through
`with ThreadPoolExecutor(...) as executor:`, whose exit calls
`shutdown(wait=True)` and therefore joins the worker thread: even when
`future.result` has already raised its timeout, control leaves the block
only once the submitted call completes, so the block consumes `gDur` wall
time in the timeout case as well (and `gDur ≤ grammarTimeoutOf elapsed`
in the success case). -/
def runProcessingTail (filtered : Str) (g : Str → Str) (gDur : ℚ)
    (toneFn fmtFn : Str → Str) (elapsed toneDur fmtDur : ℚ) : TimedTail :=
  if MAX_LATENCY - elapsed - 1 / 20 ≤ 1 / 10 then
    ⟨filtered, filtered, Option.none, elapsed⟩
  else
    ⟨if gDur ≤ grammarTimeoutOf elapsed then g filtered else filtered,
     fmtFn (toneFn (if gDur ≤ grammarTimeoutOf elapsed then g filtered else filtered)),
     some (grammarTimeoutOf elapsed),
     elapsed + gDur + toneDur + fmtDur⟩

/-! ### Claims -/

/-- C7: on the input "i have a tomorrow match" the Grammar Corrector applies
the article+time-word+noun reordering, sentence-initial capitalisation and
terminal punctuation, returning exactly "I have a match tomorrow.". -/
theorem c7_word_order_scenario :
    GrammarProcessor.correct_text ("i have a tomorrow match").data =
      ("I have a match tomorrow.").data := by
  decide

/-- C8: the break classifier returns `paragraph` for durations at least
`paragraph_pause`, else `sentence` at least `sentence_pause`, else `none`;
with pauses 2.0/5.0, durations 1.0, 2.5, 6.0 classify as none, sentence,
paragraph. -/
theorem c8_classify_thresholds (pd : ParagraphDetector) (d : ℚ) :
    (pd.paragraph_pause ≤ d → pd.detect_break_type d = BreakType.paragraph) ∧
    (d < pd.paragraph_pause → pd.sentence_pause ≤ d →
      pd.detect_break_type d = BreakType.sentence) ∧
    (d < pd.paragraph_pause → d < pd.sentence_pause →
      pd.detect_break_type d = BreakType.none) ∧
    ((⟨2, 5⟩ : ParagraphDetector).detect_break_type 1 = BreakType.none ∧
     (⟨2, 5⟩ : ParagraphDetector).detect_break_type (5 / 2) = BreakType.sentence ∧
     (⟨2, 5⟩ : ParagraphDetector).detect_break_type 6 = BreakType.paragraph) := by
  unfold ParagraphDetector.detect_break_type
  refine ⟨fun h => by rw [if_pos h], fun h1 h2 => ?_, fun h1 h2 => ?_, by norm_num⟩
  · rw [if_neg (by linarith), if_pos h2]
  · rw [if_neg (by linarith), if_neg (by linarith)]

/-- Witness for C8 at the concrete thresholds and duration 6. -/
theorem c8_classify_thresholds_witness :
    (⟨2, 5⟩ : ParagraphDetector).detect_break_type 6 = BreakType.paragraph :=
  (c8_classify_thresholds ⟨2, 5⟩ 6).1 (by norm_num)

/-- C3: the orchestrator does run the grammar corrector under the timeout
`min(0.3, remaining_budget - 0.1)` and on timeout the pre-correction
(filtered) text continues, but the claim's budget conclusion fails on the
code: the `with ThreadPoolExecutor` exit joins the still-running 2-second
grammar call (`shutdown(wait=True)`), so at the failing input — a grammar
stage taking 2 seconds with negligible other stage times — the pipeline
resumes only after 2 seconds, exceeding the 1.5-second budget while still
using the uncorrected text. -/
theorem c3_grammar_join_blows_budget :
    (runProcessingTail ("x").data id 2 id id 0 0 0).corrected = ("x").data ∧
    (runProcessingTail ("x").data id 2 id id 0 0 0).grammarTimeout =
      some (min (3 / 10) (MAX_LATENCY - 0 - 1 / 20 - 1 / 10)) ∧
    MAX_LATENCY < (runProcessingTail ("x").data id 2 id id 0 0 0).total := by
  have hcond : ¬ (MAX_LATENCY - 0 - 1 / 20 ≤ (1 : ℚ) / 10) := by
    norm_num [MAX_LATENCY]
  have hg : ¬ (2 : ℚ) ≤ grammarTimeoutOf 0 := by
    have h1 : grammarTimeoutOf 0 ≤ 3 / 10 := min_le_left _ _
    intro hle
    linarith
  unfold runProcessingTail
  rw [if_neg hcond]
  refine ⟨by simp [hg], rfl, ?_⟩
  show MAX_LATENCY < 0 + 2 + 0 + 0
  norm_num [MAX_LATENCY]

/-- C5: the grammar corrector never lets an internal failure escape its
boundary: with the `try`-block body abstracted as a fallible computation,
a failing body on non-degenerate input yields exactly the minimal fallback
(first letter capitalised, terminal punctuation ensured); and the concrete
`correct_text` is the same boundary wrapped around its (total) rule body. -/
theorem c5_corrector_never_raises :
    (∀ (body : Str → Except Unit Str) (text : Str) (e : Unit),
      pyStrip text ≠ [] → body text = Except.error e →
      GrammarProcessor.correctTextBoundary body text =
        GrammarProcessor.grammarFallback text) ∧
    (∀ text : Str,
      GrammarProcessor.correct_text text =
        GrammarProcessor.correctTextBoundary
          (fun t => Except.ok (GrammarProcessor.correctBody t)) text) := by
  constructor
  · intro body text e hne hb
    unfold GrammarProcessor.correctTextBoundary
    rw [if_neg hne, hb]
  · intro text
    unfold GrammarProcessor.correct_text GrammarProcessor.correctTextBoundary
    split <;> rfl

/-- Witness for C5: a body that always fails falls back on "hello". -/
theorem c5_corrector_never_raises_witness :
    GrammarProcessor.correctTextBoundary (fun _ => Except.error ()) ("hello").data =
      GrammarProcessor.grammarFallback ("hello").data :=
  c5_corrector_never_raises.1 (fun _ => Except.error ()) ("hello").data ()
    (by decide) rfl

open TranscriptionDatabase in
/-- C1: the orchestrator uses a stored exact-match correction as a pipeline
override only when that correction has been recorded at least 3 times for
this (lowered original, corrected output, tone mode); whenever the recorded
count is 2 or fewer (or there is no exact match at all), the full staged
pipeline — deduplication, disfluency filtering, grammar, tone, formatting —
runs on the utterance. -/
theorem c1_exact_match_gating (db : List Correction) (toneFn fmtFn : Str → Str)
    (s tone : Str) :
    (∀ out, runRecorder db toneFn fmtFn s tone = RecorderResult.learned out →
      check_exact_match db s tone = some out ∧ 3 ≤ correctionCount db s out tone) ∧
    (∀ out, check_exact_match db s tone = some out →
      correctionCount db s out tone ≤ 2 →
      runRecorder db toneFn fmtFn s tone =
        RecorderResult.staged (stagedPipeline toneFn fmtFn s)) ∧
    (check_exact_match db s tone = Option.none →
      runRecorder db toneFn fmtFn s tone =
        RecorderResult.staged (stagedPipeline toneFn fmtFn s)) := by
  refine ⟨?_, ?_, ?_⟩
  · intro out h
    unfold runRecorder at h
    cases hlo : learnedOverride db s tone with
    | none => rw [hlo] at h; simp at h
    | some o =>
      rw [hlo] at h
      simp only [RecorderResult.learned.injEq] at h
      subst h
      cases hm : check_exact_match db s tone with
      | none =>
        simp only [learnedOverride, hm] at hlo
        exact absurd hlo (by simp)
      | some o2 =>
        simp only [learnedOverride, hm] at hlo
        split at hlo
        next hc =>
          simp only [Option.some.injEq] at hlo
          subst hlo
          exact ⟨rfl, hc.2⟩
        next hc => simp at hlo
  · intro out hm hcount
    have hno : ¬ (out ≠ [] ∧ 3 ≤ correctionCount db s out tone) := by
      rintro ⟨-, h3⟩; omega
    have hlo : learnedOverride db s tone = Option.none := by
      simp only [learnedOverride, hm]
      rw [if_neg hno]
    unfold runRecorder
    rw [hlo]
  · intro hm
    have hlo : learnedOverride db s tone = Option.none := by
      simp only [learnedOverride, hm]
    unfold runRecorder
    rw [hlo]

open TranscriptionDatabase in
/-- Witness for C1: with exactly two recorded copies of the same correction,
the staged pipeline (not the override) runs. -/
theorem c1_exact_match_gating_witness :
    runRecorder
      [⟨("hello").data, ("h").data, ("Hi").data, ("neutral").data⟩,
       ⟨("hello").data, ("h").data, ("Hi").data, ("neutral").data⟩]
      id id ("hello").data ("neutral").data =
    RecorderResult.staged (stagedPipeline id id ("hello").data) :=
  (c1_exact_match_gating _ id id _ _).2.1 ("Hi").data (by decide) (by decide)

/-! ### Helper lemmas: splitting, joining and the adjacent-duplicate collapse -/

/-- Fuel adequacy for `pySplitAux`: any two fuels at least the string length
compute the same split. -/
theorem pySplitAux_fuel :
    ∀ (f1 f2 : Nat) (s : Str), s.length ≤ f1 → s.length ≤ f2 →
      pySplitAux f1 s = pySplitAux f2 s := by
  intro f1
  induction f1 with
  | zero =>
    intro f2 s h1 _
    have hs : s = [] := List.length_eq_zero.mp (Nat.le_zero.mp h1)
    subst hs
    cases f2 <;> rfl
  | succ f ih =>
    intro f2 s h1 h2
    cases s with
    | nil => cases f2 <;> rfl
    | cons c cs =>
      cases f2 with
      | zero => simp at h2
      | succ f2x =>
        have hcs1 : cs.length ≤ f := by simp at h1; omega
        have hcs2 : cs.length ≤ f2x := by simp at h2; omega
        simp only [pySplitAux]
        by_cases hc : isSpaceChar c
        · rw [if_pos hc, if_pos hc]
          exact ih f2x cs hcs1 hcs2
        · rw [if_neg hc, if_neg hc]
          have hd : (cs.dropWhile (fun d => !isSpaceChar d)).length ≤ cs.length :=
            (List.dropWhile_sublist _).length_le
          exact congrArg _ (ih f2x _ (le_trans hd hcs1) (le_trans hd hcs2))

/-- The one-step unfolding of `pySplit` (fuel-free). -/
theorem pySplit_cons (c : Char) (cs : Str) :
    pySplit (c :: cs) =
      if isSpaceChar c then pySplit cs
      else (c :: cs.takeWhile (fun d => !isSpaceChar d)) ::
           pySplit (cs.dropWhile (fun d => !isSpaceChar d)) := by
  show pySplitAux (cs.length + 1) (c :: cs) = _
  simp only [pySplitAux]
  by_cases hc : isSpaceChar c
  · rw [if_pos hc, if_pos hc]
    rfl
  · rw [if_neg hc, if_neg hc]
    exact congrArg _ (pySplitAux_fuel _ _ _
      ((List.dropWhile_sublist _).length_le) le_rfl)

/-- `takeWhile`/`dropWhile` through an all-satisfying prefix up to a failing
element. -/
theorem takeWhile_append_stop (p : Char → Bool) (l : Str)
    (hl : ∀ c ∈ l, p c = true) (a : Char) (ha : p a = false) (r : Str) :
    (l ++ a :: r).takeWhile p = l ∧ (l ++ a :: r).dropWhile p = a :: r := by
  induction l with
  | nil => simp [List.takeWhile_cons, List.dropWhile_cons, ha]
  | cons x xs ih =>
    have hx : p x = true := hl x (by simp)
    have hrest := ih (fun c hc => hl c (by simp [hc]))
    simp [List.takeWhile_cons, List.dropWhile_cons, hx, hrest.1, hrest.2]

/-- `takeWhile`/`dropWhile` on an all-satisfying list. -/
theorem takeWhile_all (p : Char → Bool) (l : Str) (hl : ∀ c ∈ l, p c = true) :
    l.takeWhile p = l ∧ l.dropWhile p = [] := by
  induction l with
  | nil => simp
  | cons x xs ih =>
    have hx : p x = true := hl x (by simp)
    have hrest := ih (fun c hc => hl c (by simp [hc]))
    simp [List.takeWhile_cons, List.dropWhile_cons, hx, hrest.1, hrest.2]

/-- Every token produced by `pySplit` is nonempty and whitespace-free. -/
theorem pySplit_tokens :
    ∀ (s w : Str), w ∈ pySplit s → w ≠ [] ∧ ∀ c ∈ w, isSpaceChar c = false := by
  have aux : ∀ (fuel : Nat) (s w : Str), w ∈ pySplitAux fuel s →
      w ≠ [] ∧ ∀ c ∈ w, isSpaceChar c = false := by
    intro fuel
    induction fuel with
    | zero => intro s w h; simp [pySplitAux] at h
    | succ f ih =>
      intro s w h
      cases s with
      | nil => simp [pySplitAux] at h
      | cons c cs =>
        simp only [pySplitAux] at h
        by_cases hc : isSpaceChar c
        · rw [if_pos hc] at h
          exact ih cs w h
        · rw [if_neg hc] at h
          rcases List.mem_cons.mp h with rfl | h2
          · refine ⟨by simp, ?_⟩
            intro d hd
            rcases List.mem_cons.mp hd with rfl | hd2
            · exact eq_false_of_ne_true hc
            · have hp := List.mem_takeWhile_imp hd2
              simpa using hp
          · exact ih _ w h2
  intro s w h
  exact aux s.length s w h

/-- `pySplit` consumes a leading whitespace-free word up to a space. -/
theorem pySplit_word_append (w rest : Str) (hw : w ≠ [])
    (hc : ∀ c ∈ w, isSpaceChar c = false) :
    pySplit (w ++ ' ' :: rest) = w :: pySplit rest := by
  cases w with
  | nil => exact absurd rfl hw
  | cons c cs =>
    have hcc : isSpaceChar c = false := hc c (by simp)
    have hcs : ∀ d ∈ cs, (fun d => !isSpaceChar d) d = true := by
      intro d hd
      simp [hc d (by simp [hd])]
    have hspace : (fun d => !isSpaceChar d) ' ' = false := by decide
    have htd := takeWhile_append_stop _ cs hcs ' ' hspace rest
    rw [List.cons_append, pySplit_cons, if_neg (by simp [hcc]), htd.1, htd.2,
      pySplit_cons, if_pos (by decide)]

/-- `pySplit` of a single whitespace-free word. -/
theorem pySplit_word_only (w : Str) (hw : w ≠ [])
    (hc : ∀ c ∈ w, isSpaceChar c = false) :
    pySplit w = [w] := by
  cases w with
  | nil => exact absurd rfl hw
  | cons c cs =>
    have hcc : isSpaceChar c = false := hc c (by simp)
    have hcs : ∀ d ∈ cs, (fun d => !isSpaceChar d) d = true := by
      intro d hd
      simp [hc d (by simp [hd])]
    have htd := takeWhile_all _ cs hcs
    rw [pySplit_cons, if_neg (by simp [hcc]), htd.1, htd.2]
    rfl

/-- Splitting inverts joining for nonempty whitespace-free token lists. -/
theorem pySplit_joinSpace :
    ∀ (ts : List Str), ts ≠ [] →
      (∀ w ∈ ts, w ≠ [] ∧ ∀ c ∈ w, isSpaceChar c = false) →
      pySplit (joinSpace ts) = ts := by
  intro ts
  induction ts with
  | nil => intro h; exact absurd rfl h
  | cons w ws ih =>
    intro _ hall
    cases ws with
    | nil =>
      have hw := hall w (by simp)
      simpa [joinSpace] using pySplit_word_only w hw.1 hw.2
    | cons x xs =>
      have hw := hall w (by simp)
      have hstep : joinSpace (w :: x :: xs) = w ++ ' ' :: joinSpace (x :: xs) := rfl
      rw [hstep, pySplit_word_append w _ hw.1 hw.2,
        ih (by simp) (fun v hv => hall v (by simp [hv]))]

/-- Transport a lower-inequality chain along an equal-lowering head. -/
theorem chain_lowNe_congr {p q : Str} (h : pyLower p = pyLower q) {l : List Str}
    (hc : List.Chain (fun a b => pyLower a ≠ pyLower b) q l) :
    List.Chain (fun a b => pyLower a ≠ pyLower b) p l := by
  cases hc with
  | nil => exact List.Chain.nil
  | cons hr hc2 => exact List.Chain.cons (h ▸ hr) hc2

/-- The collapse pass produces a chain of pairwise lower-distinct adjacent
tokens starting from the previous token. -/
theorem chain_collapseAdjAux :
    ∀ (l : List Str) (p : Str),
      List.Chain (fun a b => pyLower a ≠ pyLower b) p (collapseAdjAux p l) := by
  intro l
  induction l with
  | nil => intro p; exact List.Chain.nil
  | cons t ts ih =>
    intro p
    unfold collapseAdjAux
    by_cases h : pyLower t = pyLower p
    · rw [if_pos h]
      exact chain_lowNe_congr h.symm (ih t)
    · rw [if_neg h]
      exact List.Chain.cons (fun he => h he.symm) (ih t)

/-- The collapse pass is the identity on an already-collapsed chain. -/
theorem collapseAdjAux_of_chain :
    ∀ (l : List Str) (p : Str),
      List.Chain (fun a b => pyLower a ≠ pyLower b) p l → collapseAdjAux p l = l := by
  intro l
  induction l with
  | nil => intro p _; rfl
  | cons t ts ih =>
    intro p hc
    cases hc with
    | cons hr hc2 =>
      unfold collapseAdjAux
      rw [if_neg (fun he => hr he.symm), ih t hc2]

/-- The collapse pass only keeps input tokens. -/
theorem mem_collapseAdjAux :
    ∀ (l : List Str) (p w : Str), w ∈ collapseAdjAux p l → w ∈ l := by
  intro l
  induction l with
  | nil => intro p w h; simp [collapseAdjAux] at h
  | cons t ts ih =>
    intro p w h
    unfold collapseAdjAux at h
    by_cases hc : pyLower t = pyLower p
    · rw [if_pos hc] at h
      exact List.mem_cons_of_mem _ (ih t w h)
    · rw [if_neg hc] at h
      rcases List.mem_cons.mp h with rfl | h2
      · simp
      · exact List.mem_cons_of_mem _ (ih t w h2)

/-- C2 (counterexample): the composite deduplication is not idempotent.  On
the repeated-triplet input "a b a b a b" the fuzzy pass matches the two-token
window "a b" against its repeat (similarity 100), leaving "a b a b", and a
second application removes the remaining repeat, leaving "a b". -/
theorem c2_dedupe_not_idempotent :
    dedupe_repetition (dedupe_repetition ("a b a b a b").data) ≠
      dedupe_repetition ("a b a b a b").data := by
  decide

/-- One-token-or-less inputs pass through `remove_immediate_duplicates`. -/
theorem rid_of_short (y : Str) (h : pySplit y = [] ∨ ∃ w, pySplit y = [w]) :
    remove_immediate_duplicates y = y := by
  unfold remove_immediate_duplicates
  rcases h with h | ⟨w, h⟩ <;> rw [h]

/-- Multi-token inputs are collapsed and re-joined. -/
theorem rid_of_cons (y t u : Str) (us : List Str) (h : pySplit y = t :: u :: us) :
    remove_immediate_duplicates y = joinSpace (t :: collapseAdjAux t (u :: us)) := by
  unfold remove_immediate_duplicates
  rw [h]

/-- C2 (amended): the immediate-adjacent-duplicate collapse pass is
idempotent on every string; the composite dedupe (fuzzy pass then collapse)
is not idempotent in general (see the counterexample). -/
theorem c2_collapse_pass_idempotent (x : Str) :
    remove_immediate_duplicates (remove_immediate_duplicates x) =
      remove_immediate_duplicates x := by
  rcases hsp : pySplit x with _ | ⟨t, _ | ⟨u, us⟩⟩
  · have hx : remove_immediate_duplicates x = x := rid_of_short x (Or.inl hsp)
    rw [hx]
    exact hx
  · have hx : remove_immediate_duplicates x = x := rid_of_short x (Or.inr ⟨t, hsp⟩)
    rw [hx]
    exact hx
  · have hy : remove_immediate_duplicates x =
        joinSpace (t :: collapseAdjAux t (u :: us)) := rid_of_cons x t u us hsp
    have hprops : ∀ w ∈ t :: collapseAdjAux t (u :: us),
        w ≠ [] ∧ ∀ c ∈ w, isSpaceChar c = false := by
      intro w hw
      rcases List.mem_cons.mp hw with rfl | hw2
      · exact pySplit_tokens x w (by rw [hsp]; simp)
      · have hmem : w ∈ u :: us := mem_collapseAdjAux _ _ _ hw2
        exact pySplit_tokens x w (by rw [hsp]; simp [hmem])
    have hsp2 : pySplit (remove_immediate_duplicates x) =
        t :: collapseAdjAux t (u :: us) := by
      rw [hy]
      exact pySplit_joinSpace _ (by simp) hprops
    rcases hL : collapseAdjAux t (u :: us) with _ | ⟨v, vs⟩
    · exact rid_of_short _ (Or.inr ⟨t, by rw [hsp2, hL]⟩)
    · have houter := rid_of_cons (remove_immediate_duplicates x) t v vs
        (by rw [hsp2, hL])
      rw [houter]
      have hchain : List.Chain (fun a b => pyLower a ≠ pyLower b) t (v :: vs) := by
        rw [← hL]
        exact chain_collapseAdjAux _ _
      rw [collapseAdjAux_of_chain _ _ hchain, hy, hL]

/-- C6 (counterexample): the neutral tone transform is not idempotent.  On
"you like know", removing the filler "like" leaves a double space that hides
the multi-word filler phrase "you know" from its literal-single-space pattern
within the same pass (the whitespace collapse runs only afterwards); the
second application then removes "you know" entirely, giving the empty
string. -/
theorem c6_neutral_not_idempotent :
    ToneController.transformNeutral
        (ToneController.transformNeutral ("you like know").data) ≠
      ToneController.transformNeutral ("you like know").data := by
  decide

/-- C6 (amended): the neutral transform is idempotent exactly on inputs whose
once-normalized, re-lowered form normalizes to the same core text — the
recapitalisation phase never breaks idempotence; in general (when a filler
removal hides a multi-word pattern until the next pass) idempotence fails,
as the counterexample shows. -/
theorem c6_neutral_idempotent_on_stable (x : Str)
    (h : ToneController.normalizeCore (pyLower (ToneController.normalize x)) =
         ToneController.normalizeCore (pyLower x)) :
    ToneController.transformNeutral (ToneController.transformNeutral x) =
      ToneController.transformNeutral x := by
  calc
    ToneController.transformNeutral (ToneController.transformNeutral x)
        = capFirst (ToneController.normalizeCore (pyLower (ToneController.normalize x))) := rfl
    _ = capFirst (ToneController.normalizeCore (pyLower x)) := by rw [h]
    _ = ToneController.transformNeutral x := rfl

/-- Witness for C6 (amended) on an already-stable input. -/
theorem c6_neutral_idempotent_on_stable_witness :
    ToneController.transformNeutral
        (ToneController.transformNeutral ("hello world").data) =
      ToneController.transformNeutral ("hello world").data :=
  c6_neutral_idempotent_on_stable ("hello world").data (by decide)

/-- The indexed derivation loop equals truncating zip plus filtering. -/
theorem rulePairsWords_eq_zip_filter :
    ∀ (ws cs : List Str),
      TranscriptionDatabase.rulePairsWords ws cs =
        (ws.zip cs).filter (fun p => decide (p.1 ≠ p.2)) := by
  intro ws
  induction ws with
  | nil => intro cs; rfl
  | cons w ws2 ih =>
    intro cs
    cases cs with
    | nil => rfl
    | cons c cs2 =>
      simp only [TranscriptionDatabase.rulePairsWords, List.zip_cons_cons,
        List.filter_cons]
      by_cases h : w = c
      · subst h
        simp [ih]
      · simp [h, ih]

open TranscriptionDatabase in
/-- C9: rule derivation compares tokens index-for-index only up to the
shorter tokenization (it is exactly a truncating zip followed by filtering
out equal pairs), so mismatched lengths produce no failure and the extra
tokens of the longer string produce no rule; in particular the number of
derived pairs is bounded by the shorter length.  (In the embedding the
operation is total by construction, mirroring the source's `i <
len(corrected_words)` guard.) -/
theorem c9_rule_derivation_min_length (original corrected : Str) :
    rulePairs original corrected =
      ((pySplit (pyLower original)).zip (pySplit (pyLower corrected))).filter
        (fun p => decide (p.1 ≠ p.2)) ∧
    (rulePairs original corrected).length ≤
      min (pySplit (pyLower original)).length (pySplit (pyLower corrected)).length := by
  constructor
  · exact rulePairsWords_eq_zip_filter _ _
  · have h1 := List.length_filter_le (fun p => decide (p.1 ≠ p.2))
      ((pySplit (pyLower original)).zip (pySplit (pyLower corrected)))
    rw [List.length_zip] at h1
    rw [show rulePairs original corrected = _ from rulePairsWords_eq_zip_filter _ _]
    exact h1

/-! ### Rule-store helper lemmas for C4 -/

open TranscriptionDatabase

/-- One upsert never deletes a rule; its identifying fields survive and its
usage count can only grow. -/
theorem upsert_preserves_rule :
    ∀ (st : List LearnedRule) (fw tw tone : Str) (r : LearnedRule), r ∈ st →
      ∃ q ∈ upsertRule fw tw tone st,
        q.from_word = r.from_word ∧ q.to_word = r.to_word ∧
        q.tone_mode = r.tone_mode ∧ r.usage_count ≤ q.usage_count := by
  intro st fw tw tone
  induction st with
  | nil => intro r h; simp at h
  | cons x xs ih =>
    intro r h
    unfold upsertRule
    by_cases hk : x.key = ruleKey fw tw tone
    · rw [if_pos hk]
      rcases List.mem_cons.mp h with rfl | h2
      · exact ⟨⟨r.from_word, r.to_word, r.tone_mode, r.usage_count + 1⟩, by simp,
          rfl, rfl, rfl, Nat.le_succ _⟩
      · exact ⟨r, by simp [h2], rfl, rfl, rfl, le_rfl⟩
    · rw [if_neg hk]
      rcases List.mem_cons.mp h with rfl | h2
      · exact ⟨r, by simp, rfl, rfl, rfl, le_rfl⟩
      · rcases ih r h2 with ⟨q, hq, h1, h2x, h3, h4⟩
        exact ⟨q, List.mem_cons_of_mem _ hq, h1, h2x, h3, h4⟩

/-- Extracting rules from a correction never deletes a rule. -/
theorem foldl_upsert_preserves_rule :
    ∀ (ps : List (Str × Str)) (tone : Str) (st : List LearnedRule)
      (r : LearnedRule), r ∈ st →
      ∃ q ∈ ps.foldl (fun st2 p => upsertRule p.1 p.2 tone st2) st,
        q.from_word = r.from_word ∧ q.to_word = r.to_word ∧
        q.tone_mode = r.tone_mode ∧ r.usage_count ≤ q.usage_count := by
  intro ps
  induction ps with
  | nil => intro tone st r h; exact ⟨r, h, rfl, rfl, rfl, le_rfl⟩
  | cons p ps2 ih =>
    intro tone st r h
    simp only [List.foldl_cons]
    rcases upsert_preserves_rule st p.1 p.2 tone r h with ⟨q, hq, f1, f2, f3, f4⟩
    rcases ih tone _ q hq with ⟨q2, hq2, g1, g2, g3, g4⟩
    exact ⟨q2, hq2, g1.trans f1, g2.trans f2, g3.trans f3, f4.trans g4⟩

/-- One upsert preserves the `usage_count ≥ 1` invariant. -/
theorem upsert_usage_lb :
    ∀ (st : List LearnedRule) (fw tw tone : Str),
      (∀ r ∈ st, 1 ≤ r.usage_count) →
      ∀ r ∈ upsertRule fw tw tone st, 1 ≤ r.usage_count := by
  intro st fw tw tone
  induction st with
  | nil =>
    intro _ r h
    simp only [upsertRule, List.mem_singleton] at h
    subst h
    exact le_rfl
  | cons x xs ih =>
    intro hlb r h
    unfold upsertRule at h
    by_cases hk : x.key = ruleKey fw tw tone
    · rw [if_pos hk] at h
      rcases List.mem_cons.mp h with rfl | h2
      · simp
      · exact hlb r (List.mem_cons_of_mem _ h2)
    · rw [if_neg hk] at h
      rcases List.mem_cons.mp h with rfl | h2
      · exact hlb r (by simp)
      · exact ih (fun q hq => hlb q (List.mem_cons_of_mem _ hq)) r h2

/-- Rule extraction preserves the `usage_count ≥ 1` invariant. -/
theorem foldl_upsert_usage_lb :
    ∀ (ps : List (Str × Str)) (tone : Str) (st : List LearnedRule),
      (∀ r ∈ st, 1 ≤ r.usage_count) →
      ∀ r ∈ ps.foldl (fun st2 p => upsertRule p.1 p.2 tone st2) st,
        1 ≤ r.usage_count := by
  intro ps
  induction ps with
  | nil => intro tone st h r hr; exact h r hr
  | cons p ps2 ih =>
    intro tone st h r hr
    simp only [List.foldl_cons] at hr
    exact ih tone _ (upsert_usage_lb st p.1 p.2 tone h) r hr

/-- Membership through descending insertion. -/
theorem mem_insertByUsage (r : LearnedRule) :
    ∀ (l : List LearnedRule) (a : LearnedRule),
      a ∈ insertByUsage r l ↔ a = r ∨ a ∈ l := by
  intro l
  induction l with
  | nil => intro a; simp [insertByUsage]
  | cons x xs ih =>
    intro a
    unfold insertByUsage
    by_cases h : x.usage_count ≤ r.usage_count
    · rw [if_pos h]
      simp [List.mem_cons]
    · rw [if_neg h]
      simp only [List.mem_cons, ih]
      tauto

/-- Membership through the usage sort. -/
theorem mem_sortByUsageDesc :
    ∀ (l : List LearnedRule) (a : LearnedRule),
      a ∈ sortByUsageDesc l ↔ a ∈ l := by
  intro l
  induction l with
  | nil => intro a; simp [sortByUsageDesc]
  | cons x xs ih =>
    intro a
    unfold sortByUsageDesc
    rw [mem_insertByUsage, ih]
    simp [List.mem_cons]

/-- What the active-rules query returns: stored rules of the requested tone
whose usage count meets the threshold. -/
theorem mem_get_learned_rules {store : List LearnedRule} {tone : Str}
    {m : Nat} {r : LearnedRule} (h : r ∈ get_learned_rules store tone m) :
    r ∈ store ∧ r.tone_mode = tone ∧ m ≤ r.usage_count := by
  unfold get_learned_rules at h
  have h2 := (mem_sortByUsageDesc _ _).mp h
  have h3 := List.mem_filter.mp h2
  refine ⟨h3.1, ?_, ?_⟩
  · have := h3.2
    simp only [Bool.and_eq_true, beq_iff_eq, decide_eq_true_eq] at this
    exact this.1
  · have := h3.2
    simp only [Bool.and_eq_true, beq_iff_eq, decide_eq_true_eq] at this
    exact this.2

/-- A corroborating upsert of a key already present once (keys unique as in
the SQL schema) bumps exactly that rule to usage count 2. -/
theorem upsert_second_corroboration :
    ∀ (store : List LearnedRule) (fw tw t : Str),
      (store.map LearnedRule.key).Nodup →
      (⟨fw, tw, t, 1⟩ : LearnedRule) ∈ store →
      (⟨fw, tw, t, 2⟩ : LearnedRule) ∈ upsertRule fw tw t store := by
  intro store fw tw t
  induction store with
  | nil => intro _ h; simp at h
  | cons x xs ih =>
    intro hnd hmem
    unfold upsertRule
    by_cases hk : x.key = ruleKey fw tw t
    · rw [if_pos hk]
      rcases List.mem_cons.mp hmem with heq | h2
      · rw [← heq]
        simp
      · exfalso
        have hkey : (⟨fw, tw, t, 1⟩ : LearnedRule).key ∈ xs.map LearnedRule.key :=
          List.mem_map_of_mem _ h2
        have hx := (List.nodup_cons.mp hnd).1
        apply hx
        have : (⟨fw, tw, t, 1⟩ : LearnedRule).key = ruleKey fw tw t := rfl
        rw [this] at hkey
        rw [hk]
        exact hkey
    · rw [if_neg hk]
      have hne : (⟨fw, tw, t, 1⟩ : LearnedRule) ≠ x := by
        intro he
        apply hk
        rw [← he]
        rfl
      have h2 : (⟨fw, tw, t, 1⟩ : LearnedRule) ∈ xs := by
        rcases List.mem_cons.mp hmem with he | h2
        · exact absurd he hne
        · exact h2
      exact List.mem_cons_of_mem _ (ih (List.nodup_cons.mp hnd).2 h2)

/-- C4: learned rules always satisfy `usage_count ≥ 1` and are never deleted
by rule extraction (their identifying fields survive with a usage count at
least as large); a rule with `usage_count = 1` is never returned by the
active-rules query (threshold 2); and a second corroborating correction with
the same (from-word, to-word, tone mode) bumps the rule to `usage_count = 2`,
after which it is returned as active. -/
theorem c4_rule_store_invariants :
    (∀ (store : List LearnedRule) (o c t : Str),
      (∀ r ∈ store, 1 ≤ r.usage_count) →
      ∀ r ∈ extract_and_store_rules store o c t, 1 ≤ r.usage_count) ∧
    (∀ (store : List LearnedRule) (o c t : Str) (r : LearnedRule), r ∈ store →
      ∃ q ∈ extract_and_store_rules store o c t,
        q.from_word = r.from_word ∧ q.to_word = r.to_word ∧
        q.tone_mode = r.tone_mode ∧ r.usage_count ≤ q.usage_count) ∧
    (∀ (store : List LearnedRule) (t : Str) (r : LearnedRule),
      r ∈ get_learned_rules store t 2 → r.usage_count ≠ 1) ∧
    (∀ (store : List LearnedRule) (fw tw t : Str),
      (store.map LearnedRule.key).Nodup →
      (⟨fw, tw, t, 1⟩ : LearnedRule) ∈ store →
      (⟨fw, tw, t, 2⟩ : LearnedRule) ∈ upsertRule fw tw t store ∧
      (⟨fw, tw, t, 2⟩ : LearnedRule) ∈
        get_learned_rules (upsertRule fw tw t store) t 2) := by
  refine ⟨?_, ?_, ?_, ?_⟩
  · intro store o c t hlb r hr
    exact foldl_upsert_usage_lb (rulePairs o c) t store hlb r hr
  · intro store o c t r hr
    exact foldl_upsert_preserves_rule (rulePairs o c) t store r hr
  · intro store t r hr
    have := (mem_get_learned_rules hr).2.2
    omega
  · intro store fw tw t hnd hmem
    have hup := upsert_second_corroboration store fw tw t hnd hmem
    refine ⟨hup, ?_⟩
    unfold get_learned_rules
    rw [mem_sortByUsageDesc]
    exact List.mem_filter.mpr ⟨hup, by simp⟩

open TranscriptionDatabase in
/-- Witness for C4: a singleton store holding (gotta→must, formal) with one
use; the corroborating upsert activates it. -/
theorem c4_rule_store_invariants_witness :
    (⟨("gotta").data, ("must").data, ("formal").data, 2⟩ : LearnedRule) ∈
      upsertRule ("gotta").data ("must").data ("formal").data
        [⟨("gotta").data, ("must").data, ("formal").data, 1⟩] ∧
    (⟨("gotta").data, ("must").data, ("formal").data, 2⟩ : LearnedRule) ∈
      get_learned_rules
        (upsertRule ("gotta").data ("must").data ("formal").data
          [⟨("gotta").data, ("must").data, ("formal").data, 1⟩])
        ("formal").data 2 :=
  c4_rule_store_invariants.2.2.2
    [⟨("gotta").data, ("must").data, ("formal").data, 1⟩]
    ("gotta").data ("must").data ("formal").data (by decide) (by decide)

/-! ### Character and membership lemmas for C10 -/

/-- Lowering never produces an ASCII uppercase letter. -/
theorem isUpperAscii_lowerChar (c : Char) : isUpperAscii (lowerChar c) = false := by
  unfold lowerChar
  split
  all_goals first
  | rfl
  | (unfold isUpperAscii; split <;> simp_all)

/-- Upper-casing never produces an ASCII lowercase letter. -/
theorem isLowerAscii_upperChar (c : Char) : isLowerAscii (upperChar c) = false := by
  unfold upperChar
  split
  all_goals first
  | rfl
  | (unfold isLowerAscii; split <;> simp_all)

/-- Characters of a lowered string are never uppercase. -/
theorem mem_pyLower_not_upper {s : Str} {c : Char} (h : c ∈ pyLower s) :
    isUpperAscii c = false := by
  rcases List.mem_map.mp h with ⟨a, -, rfl⟩
  exact isUpperAscii_lowerChar a

/-- Characters of a space-join come from a token or are the space. -/
theorem mem_joinSpace :
    ∀ (ts : List Str) (c : Char), c ∈ joinSpace ts → (∃ w ∈ ts, c ∈ w) ∨ c = ' ' := by
  intro ts
  induction ts with
  | nil => intro c h; simp [joinSpace] at h
  | cons w ws ih =>
    intro c h
    cases ws with
    | nil => exact Or.inl ⟨w, by simp, h⟩
    | cons x xs =>
      have hstep : joinSpace (w :: x :: xs) = w ++ ' ' :: joinSpace (x :: xs) := rfl
      rw [hstep] at h
      rcases List.mem_append.mp h with hw | hrest
      · exact Or.inl ⟨w, by simp, hw⟩
      · rcases List.mem_cons.mp hrest with rfl | h2
        · exact Or.inr rfl
        · rcases ih c h2 with ⟨v, hv, hc⟩ | rfl
          · exact Or.inl ⟨v, by simp [hv], hc⟩
          · exact Or.inr rfl

/-- Characters of a whitespace collapse come from the input or are the space. -/
theorem mem_collapseWs {s : Str} {c : Char} (h : c ∈ collapseWs s) :
    c ∈ s ∨ c = ' ' := by
  have aux : ∀ (fuel : Nat) (s2 : Str) (c2 : Char), c2 ∈ collapseWsAux fuel s2 →
      c2 ∈ s2 ∨ c2 = ' ' := by
    intro fuel
    induction fuel with
    | zero => intro s2 c2 h2; simp [collapseWsAux] at h2
    | succ f ih =>
      intro s2 c2 h2
      cases s2 with
      | nil => simp [collapseWsAux] at h2
      | cons d ds =>
        unfold collapseWsAux at h2
        by_cases hd : isSpaceChar d
        · rw [if_pos hd] at h2
          rcases List.mem_cons.mp h2 with rfl | h3
          · exact Or.inr rfl
          · rcases ih _ _ h3 with h4 | h4
            · exact Or.inl (List.mem_cons_of_mem _
                ((List.dropWhile_sublist _).mem h4))
            · exact Or.inr h4
        · rw [if_neg hd] at h2
          rcases List.mem_cons.mp h2 with rfl | h3
          · exact Or.inl (by simp)
          · rcases ih _ _ h3 with h4 | h4
            · exact Or.inl (List.mem_cons_of_mem _ h4)
            · exact Or.inr h4
  exact aux s.length s c h

/-- Stripping only keeps input characters. -/
theorem mem_pyStrip {s : Str} {c : Char} (h : c ∈ pyStrip s) : c ∈ s := by
  unfold pyStrip at h
  rw [List.mem_reverse] at h
  have h2 := (List.dropWhile_sublist _).mem h
  rw [List.mem_reverse] at h2
  exact (List.dropWhile_sublist _).mem h2

/-- The filler-removal loop only keeps input tokens. -/
theorem mem_removeFillersList :
    ∀ (fuel : Nat) (ws : List Str) (w : Str),
      w ∈ DisfluencyFilter.removeFillersList fuel ws → w ∈ ws := by
  intro fuel
  induction fuel with
  | zero => intro ws w h; exact h
  | succ f ih =>
    intro ws w h
    cases ws with
    | nil => simp [DisfluencyFilter.removeFillersList] at h
    | cons x rest =>
      unfold DisfluencyFilter.removeFillersList at h
      cases hm : DisfluencyFilter.matchFillerAt (x :: rest) with
      | some n =>
        rw [hm] at h
        exact List.drop_subset _ _ (ih _ w h)
      | none =>
        rw [hm] at h
        rcases List.mem_cons.mp h with rfl | h2
        · simp
        · exact List.mem_cons_of_mem _ (ih _ w h2)

/-- Token characters come from the split string. -/
theorem mem_of_mem_pySplit :
    ∀ (s w : Str) (c : Char), w ∈ pySplit s → c ∈ w → c ∈ s := by
  have aux : ∀ (fuel : Nat) (s w : Str) (c : Char),
      w ∈ pySplitAux fuel s → c ∈ w → c ∈ s := by
    intro fuel
    induction fuel with
    | zero => intro s w c h _; simp [pySplitAux] at h
    | succ f ih =>
      intro s w c h hc
      cases s with
      | nil => simp [pySplitAux] at h
      | cons d ds =>
        simp only [pySplitAux] at h
        by_cases hd : isSpaceChar d
        · rw [if_pos hd] at h
          exact List.mem_cons_of_mem _ (ih ds w c h hc)
        · rw [if_neg hd] at h
          rcases List.mem_cons.mp h with rfl | h2
          · rcases List.mem_cons.mp hc with rfl | h3
            · simp
            · exact List.mem_cons_of_mem _ ((List.takeWhile_sublist _).mem h3)
          · exact List.mem_cons_of_mem _
              ((List.dropWhile_sublist _).mem (ih _ w c h2 hc))
  intro s w c h hc
  exact aux s.length s w c h hc

/-- Every character of `remove_fillers`' output is non-uppercase (it comes
from the lowered tokenization or is a joining space). -/
theorem remove_fillers_not_upper {t : Str} {c : Char}
    (h : c ∈ DisfluencyFilter.remove_fillers t) : isUpperAscii c = false := by
  unfold DisfluencyFilter.remove_fillers at h
  rcases mem_joinSpace _ c h with ⟨w, hw, hc⟩ | rfl
  · have hw2 := mem_removeFillersList _ _ _ hw
    exact mem_pyLower_not_upper (mem_of_mem_pySplit _ w c hw2 hc)
  · rfl

/-- C10: the disfluency filter's output is entirely non-uppercase after its
first character (filtering tokenizes the lowered input, so surviving content
words lose their original casing), while the first character is capitalised
(never a lowercase letter); on "I met Bob" the name's capital is lost. -/
theorem c10_filter_output_lowercase :
    (∀ (s : Str) (c : Char),
      c ∈ (DisfluencyFilter.clean_text s).drop 1 → isUpperAscii c = false) ∧
    (∀ (s : Str) (h : Char),
      (DisfluencyFilter.clean_text s).head? = some h → isLowerAscii h = false) ∧
    DisfluencyFilter.clean_text ("I met Bob").data = ("I met bob").data := by
  have hcore : ∀ (s : Str) (c : Char),
      c ∈ pyStrip (collapseWs (DisfluencyFilter.remove_fillers
        (DisfluencyFilter.remove_stutters s))) → isUpperAscii c = false := by
    intro s c h
    have h2 := mem_pyStrip h
    rcases mem_collapseWs h2 with h3 | rfl
    · exact remove_fillers_not_upper h3
    · rfl
  refine ⟨?_, ?_, by decide⟩
  · intro s c h
    unfold DisfluencyFilter.clean_text at h
    rcases hcase : pyStrip (collapseWs (DisfluencyFilter.remove_fillers
        (DisfluencyFilter.remove_stutters s))) with _ | ⟨d, ds⟩
    · rw [hcase] at h
      simp [capFirst] at h
    · rw [hcase] at h
      simp only [capFirst, List.drop_succ_cons, List.drop_zero] at h
      exact hcore s c (by rw [hcase]; exact List.mem_cons_of_mem _ h)
  · intro s h hh
    unfold DisfluencyFilter.clean_text at hh
    rcases hcase : pyStrip (collapseWs (DisfluencyFilter.remove_fillers
        (DisfluencyFilter.remove_stutters s))) with _ | ⟨d, ds⟩
    · rw [hcase] at hh
      simp [capFirst] at hh
    · rw [hcase] at hh
      simp only [capFirst, List.head?_cons, Option.some.injEq] at hh
      rw [← hh]
      exact isLowerAscii_upperChar d

/-- Witness for C10 on a concrete input with interior capitals. -/
theorem c10_filter_output_lowercase_witness : isUpperAscii 'b' = false :=
  c10_filter_output_lowercase.1 ("AB CD").data 'b' (by decide)
